import Mathlib

/-!
# Verification of the characters query engine (src/server.js)

Shallow embedding of the query engine in `src/server.js`: the path resolver
(`getByPath` / `setByPath`), the predicate layers (race filter, generic field
filters), the sort comparator, pagination and the output projection
(`prepareCharacter`), together with the `/races` distinct-values query.

Modelling conventions:
* JavaScript values are modelled by the inductive `JsVal`.  `undefined` is
  modelled by `Option.none` at the points where the code can observe it
  (property access, `getByPath`).  JS objects are insertion-ordered key/value
  association lists; arrays carry their elements plus the expando string
  properties that property writes on an array create.
* JS numbers are modelled as `Int`; `Number(·)` and `parseInt(·, 10)` are
  modelled on the decimal-integer fragment (optional sign, digit run,
  whitespace handling, `Number('') = 0`); decimal points, exponents, hex
  literals and `Infinity` are outside the model.  `NaN` is `Option.none`.
* `String.prototype.toLowerCase`, `trim`, `split` and
  `localeCompare(·, undefined, (sensitivity base))` are modelled on ASCII
  as character maps over `String.data`; the locale-aware base comparison is
  case-insensitive lexicographic comparison.
* `Array.prototype.sort` (a stable sort) is modelled by `List.insertionSort`,
  which is stable and agrees with every stable sort for consistent
  comparators.
-/

namespace HeroApi

/-- JavaScript values as the engine observes them: `null`, booleans, numbers
(integer fragment), strings, arrays (elements plus expando string-keyed
properties) and plain objects (insertion-ordered association lists). -/
inductive JsVal : Type where
  | vNull : JsVal
  | vBool : Bool → JsVal
  | vNum : Int → JsVal
  | vStr : String → JsVal
  | vArr : List JsVal → List (String × JsVal) → JsVal
  | vObj : List (String × JsVal) → JsVal

/-! ## String helpers (ASCII models of the JS string primitives) -/

/-- `String.prototype.toLowerCase`, restricted to ASCII case folding. -/
def jsToLower (s : String) : String := String.mk (s.data.map Char.toLower)

/-- Strip leading and trailing whitespace from a character list. -/
def trimChars (l : List Char) : List Char :=
  ((l.dropWhile Char.isWhitespace).reverse.dropWhile Char.isWhitespace).reverse

/-- `String.prototype.trim`. -/
def jsTrim (s : String) : String := String.mk (trimChars s.data)

/-- `String.prototype.split` with a single-character separator, on character
lists.  `split` of the empty string is `[""]`, as in JS. -/
def splitChars (sep : Char) : List Char → List (List Char)
  | [] => [[]]
  | c :: cs =>
    match splitChars sep cs with
    | [] => [[c]]
    | g :: gs => if c == sep then [] :: g :: gs else (c :: g) :: gs

/-- `s.split(sep)` for a single-character separator. -/
def jsSplit (s : String) (sep : Char) : List String :=
  (splitChars sep s.data).map String.mk

/-- Does `needle` occur as a prefix of `hay`? (helper for substring search) -/
def subAt : List Char → List Char → Bool
  | [], _ => true
  | _ :: _, [] => false
  | a :: as, b :: bs => a == b && subAt as bs

/-- Does `needle` occur as a contiguous run inside `hay`? -/
def hasSub (needle : List Char) : List Char → Bool
  | [] => needle.isEmpty
  | b :: bs => subAt needle (b :: bs) || hasSub needle bs

/-- `hay.includes(needle)` (`String.prototype.includes`). -/
def jsIncludes (hay needle : String) : Bool := hasSub needle.data hay.data

/-- Three-way lexicographic comparison of character lists, the model of the
sign of `a.localeCompare(b, undefined, (sensitivity base))` after both
sides are case-folded. -/
def cmpChars : List Char → List Char → Int
  | [], [] => 0
  | [], _ :: _ => -1
  | _ :: _, [] => 1
  | a :: as, b :: bs => if a < b then -1 else if b < a then 1 else cmpChars as bs

/-- Is `c` a decimal digit? -/
def chDigit (c : Char) : Bool := '0' ≤ c && c ≤ '9'

/-- Value of a digit run (most significant first). -/
def digitsVal : List Char → Nat → Nat
  | [], acc => acc
  | c :: cs, acc => digitsVal cs (acc * 10 + (c.toNat - '0'.toNat))

/-- Parse a non-empty all-digit run, `none` otherwise. -/
def parseDigits (l : List Char) : Option Nat :=
  if !l.isEmpty && l.all chDigit then some (digitsVal l 0) else none

/-! ## Stringification and numeric coercion -/

mutual

/-- `String(v)` for a defined, non-`undefined` value: numbers print as
decimal integers, arrays join their stringified elements with `","`
(`null` elements print as the empty string), objects print as
`"[object Object]"`. -/
def jsToString : JsVal → String
  | .vNull => "null"
  | .vBool b => if b then "true" else "false"
  | .vNum n => toString n
  | .vStr s => s
  | .vArr elems _ => String.intercalate "," (jsToStringElems elems)
  | .vObj _ => "[object Object]"

/-- Stringify array elements for `Array.prototype.toString`. -/
def jsToStringElems : List JsVal → List String
  | [] => []
  | .vNull :: rest => "" :: jsToStringElems rest
  | v :: rest => jsToString v :: jsToStringElems rest

end

/-- `norm` from the source: `v == null ? '' : String(v).toLowerCase()`.
The argument is an optional value so that `undefined` (i.e. `none`) is
covered exactly as the `v == null` test covers it. -/
def norm (v : Option JsVal) : String :=
  match v with
  | none => ""
  | some .vNull => ""
  | some v => jsToLower (jsToString v)

/-- `String(·)` applied to a value the code has already checked to be
defined; `none` stringifies as `undefined` does in JS. -/
def strOfDef (o : Option JsVal) : String :=
  match o with
  | some v => jsToString v
  | none => "undefined"

/-- `Number(s)` for a string: surrounding whitespace is dropped, the empty
string is `0`, and an optionally signed digit run is its integer value;
anything else is `NaN` (`none`).  (Integer fragment of the JS grammar.) -/
def jsStrToNum (s : String) : Option Int :=
  match trimChars s.data with
  | [] => some 0
  | '-' :: ds => (parseDigits ds).map (fun n => -(n : Int))
  | '+' :: ds => (parseDigits ds).map (fun n => (n : Int))
  | ds => (parseDigits ds).map (fun n => (n : Int))

/-- `Number(v)`: `undefined ↦ NaN`, `null ↦ 0`, booleans to `0`/`1`,
strings via `jsStrToNum`, arrays via their string form, objects to `NaN`. -/
def jsNum : Option JsVal → Option Int
  | none => none
  | some .vNull => some 0
  | some (.vBool b) => some (if b then 1 else 0)
  | some (.vNum n) => some n
  | some (.vStr s) => jsStrToNum s
  | some (.vArr elems props) => jsStrToNum (jsToString (.vArr elems props))
  | some (.vObj _) => none

/-- `parseInt(s, 10)`: skip leading whitespace, optional sign, then the
longest leading digit run; `NaN` (`none`) when that run is empty. -/
def jsParseInt (s : String) : Option Int :=
  match s.data.dropWhile Char.isWhitespace with
  | '-' :: rest => (parseDigits (rest.takeWhile chDigit)).map (fun n => -(n : Int))
  | '+' :: rest => (parseDigits (rest.takeWhile chDigit)).map (fun n => (n : Int))
  | rest => (parseDigits (rest.takeWhile chDigit)).map (fun n => (n : Int))

/-! ## Property access and the path resolver -/

/-- Property lookup in an insertion-ordered association list. -/
def lookupKey : List (String × JsVal) → String → Option JsVal
  | [], _ => none
  | (k', v) :: rest, k => if k' == k then some v else lookupKey rest k

/-- Property assignment in an association list (overwrite in place, append
when absent — JS object update semantics). -/
def setKey : List (String × JsVal) → String → JsVal → List (String × JsVal)
  | [], k, v => [(k, v)]
  | (k', v') :: rest, k, v =>
    if k' == k then (k, v) :: rest else (k', v') :: setKey rest k v

/-- Is `k` a canonical array index (the decimal form of a natural number,
no leading zeros)? -/
def asArrayIndex (k : String) : Option Nat :=
  let l := k.data
  if !l.isEmpty && l.all chDigit && (l == ['0'] || l.head? != some '0') then
    some (digitsVal l 0)
  else none

/-- `v[k]`: object property lookup; on arrays a canonical in-range index
reads the element and any other key reads the expando properties;
property access on primitives is not modelled (it yields `undefined`;
string character/`length` properties are outside the model). -/
def jsGet : JsVal → String → Option JsVal
  | .vObj fs, k => lookupKey fs k
  | .vArr elems props, k =>
    (match asArrayIndex k with
     | some i =>
       match elems[i]? with
       | some v => some v
       | none => lookupKey props k
     | none => lookupKey props k)
  | _, _ => none

/-- `v[k] = value`: on objects, association-list update; on arrays, a
canonical in-range index updates the element and any other key updates the
expando properties; on primitives the write is a silent no-op (non-strict
mode). -/
def jsSet : JsVal → String → JsVal → JsVal
  | .vObj fs, k, v => .vObj (setKey fs k v)
  | .vArr elems props, k, v =>
    (match asArrayIndex k with
     | some i =>
       if i < elems.length then .vArr (elems.set i v) props
       else .vArr elems (setKey props k v)
     | none => .vArr elems (setKey props k v))
  | t, _, _ => t

/-- One step of the `reduce` in `getByPath`:
`(acc, key) => (acc != null ? acc[key] : undefined)`. -/
def stepGet (acc : Option JsVal) (key : String) : Option JsVal :=
  match acc with
  | none => none
  | some .vNull => none
  | some v => jsGet v key

/-- `getByPath(obj, path)` from the source: empty path is `undefined`,
otherwise the dot-separated keys are walked left to right, with any
`null`/`undefined` intermediate collapsing to `undefined`. -/
def getByPath (obj : JsVal) (path : String) : Option JsVal :=
  if path == "" then none
  else (jsSplit path '.').foldl stepGet (some obj)

/-- `typeof v === 'object' && v !== null` — the values `setByPath` is
willing to descend into. -/
def isObjectLike : JsVal → Bool
  | .vObj _ => true
  | .vArr _ _ => true
  | _ => false

/-- The loop body of `setByPath` over the split key list: the last key is
assigned, and every intermediate key is descended into after replacing any
non-object (or `null`/missing) value by a fresh `{}`. -/
def setKeysAux : JsVal → List String → JsVal → JsVal
  | t, [], _ => t
  | t, [k], v => jsSet t k v
  | t, k :: k' :: ks, v =>
    let child :=
      match jsGet t k with
      | some c => if isObjectLike c then c else .vObj []
      | none => .vObj []
    jsSet t k (setKeysAux child (k' :: ks) v)

/-- `setByPath(target, path, value)` from the source (functional form: the
mutated target is returned). -/
def setByPath (target : JsVal) (path : String) (value : JsVal) : JsVal :=
  setKeysAux target (jsSplit path '.') value

/-! ## Query-parameter parsing -/

/-- `a || d` for an optionally-present string query parameter: an absent
parameter (`none`) and the empty string are both falsy. -/
def jsOr (o : Option String) (d : String) : String :=
  match o with
  | none => d
  | some s => if s == "" then d else s

/-- `x || d` for a parsed number: `NaN` (`none`) and `0` are falsy. -/
def orNum (o : Option Int) (d : Int) : Int :=
  match o with
  | none => d
  | some n => if n == 0 then d else n

/-- `Math.max(1, parseInt(req.query.page || req.query._page || '1', 10) || 1)`. -/
def parsePage (p p2 : Option String) : Int :=
  max 1 (orNum (jsParseInt (jsOr p (jsOr p2 "1"))) 1)

/-- `Math.max(1, parseInt(req.query.limit || req.query._limit || '20', 10) || 20)`. -/
def parseLimit (l l2 : Option String) : Int :=
  max 1 (orNum (jsParseInt (jsOr l (jsOr l2 "20"))) 20)

/-- `(req.query.sort || req.query._sort || '').trim()`. -/
def parseSortKey (s s2 : Option String) : String :=
  jsTrim (jsOr s (jsOr s2 ""))

/-- `(req.query.order || req.query._order || 'asc').toLowerCase() === 'desc'
? 'desc' : 'asc'`. -/
def parseSortOrder (o o2 : Option String) : String :=
  if jsToLower (jsOr o (jsOr o2 "asc")) == "desc" then "desc" else "asc"

/-! ## Race filter -/

/-- JS truthiness test on a value. -/
def jsFalsy : JsVal → Bool
  | .vNull => true
  | .vBool b => !b
  | .vNum n => n == 0
  | .vStr s => s == ""
  | _ => false

/-- Truthiness of an optional value (`undefined` is falsy). -/
def falsyOpt : Option JsVal → Bool
  | none => true
  | some v => jsFalsy v

/-- `item?.appearance?.race` via optional chaining. -/
def raceOf (item : JsVal) : Option JsVal :=
  stepGet (stepGet (some item) "appearance") "race"

/-- The requested race set:
`String(req.query.race).split(',').map(s => s.trim().toLowerCase()).filter(Boolean)`. -/
def parseRacesWanted (raw : String) : List String :=
  ((jsSplit raw ',').map (fun s => jsToLower (jsTrim s))).filter (fun s => s ≠ "")

/-- The per-record race predicate from the `/characters` handler: a falsy
`appearance.race` never matches; otherwise the race string is split on `/`,
trimmed, lower-cased and cleaned of empty parts, and the record matches when
some part is among the requested races. -/
def raceFilterMatch (wanted : List String) (item : JsVal) : Bool :=
  if falsyOpt (raceOf item) then false
  else
    let parts := ((jsSplit (strOfDef (raceOf item)) '/').map
        (fun p => jsToLower (jsTrim p))).filter (fun p => p ≠ "")
    parts.any (fun p => wanted.contains p)

/-- The race-filter stage of the handler: it runs only when the `race`
parameter is present and the parsed race set is non-empty. -/
def applyRaceFilter (rawQuery : Option String) (l : List JsVal) : List JsVal :=
  match rawQuery with
  | none => l
  | some raw =>
    let wanted := parseRacesWanted raw
    if wanted.isEmpty then l else l.filter (raceFilterMatch wanted)

/-! ## Generic field filters -/

/-- One generic `path=expected` filter from the `/characters` handler:
array values match by exact stringified membership; otherwise, when both
sides coerce to numbers, by numeric equality; otherwise by case-insensitive
substring containment of the expected text in the actual text. -/
def fieldFilterMatch (item : JsVal) (key expected : String) : Bool :=
  match getByPath item key with
  | some (.vArr elems _) => (elems.map jsToString).contains expected
  | actual =>
    match jsStrToNum expected, jsNum actual with
    | some e, some a => a == e
    | _, _ => jsIncludes (norm actual) (jsToLower expected)

/-- `filterKeys.every(...)`: all generic filters must hold. -/
def applyFieldFilters (filters : List (String × String)) (item : JsVal) : Bool :=
  filters.all (fun kv => fieldFilterMatch item kv.1 kv.2)

/-! ## Sort comparator and sorting -/

/-- `v == null` (matches both `undefined` and `null`). -/
def nullish : Option JsVal → Bool
  | none => true
  | some .vNull => true
  | _ => false

/-- The sort comparator from the `/characters` handler: both-missing keys
tie; a single missing key sorts first ascending and last descending; both
present compare numerically when both coerce to numbers and otherwise as
locale-aware case-insensitive text, negated for descending order. -/
def characterCmp (sortKey ord : String) (a b : JsVal) : Int :=
  let va := getByPath a sortKey
  let vb := getByPath b sortKey
  if nullish va && nullish vb then 0
  else if nullish va then (if ord == "asc" then -1 else 1)
  else if nullish vb then (if ord == "asc" then 1 else -1)
  else
    let cmp : Int :=
      match jsNum va, jsNum vb with
      | some na, some nb => na - nb
      | _, _ => cmpChars (jsToLower (strOfDef va)).data (jsToLower (strOfDef vb)).data
    if ord == "asc" then cmp else -cmp

/-- The sorting stage: `if (sortKey) list = [...list].sort(cmp)`, with the
stable JS sort modelled by insertion sort on `characterCmp · · ≤ 0`. -/
def sortCharacters (sortKey ord : String) (l : List JsVal) : List JsVal :=
  if sortKey == "" then l
  else l.insertionSort (fun a b => characterCmp sortKey ord a b ≤ 0)

/-! ## Pagination -/

/-- The response metadata plus page slice. -/
structure PageResult (α : Type) where
  total : Nat
  pages : Nat
  page : Nat
  limit : Nat
  data : List α

/-- The pagination tail of the `/characters` handler: `total = list.length`,
`pages = max(1, ceil(total / limit))` (natural ceiling division),
`currentPage = min(page, pages)`, and the slice
`list.slice((currentPage-1)*limit, (currentPage-1)*limit + limit)`. -/
def paginate (l : List α) (page limit : Nat) : PageResult α :=
  let total := l.length
  let pages := max 1 ((total + limit - 1) / limit)
  let currentPage := min page pages
  let start := (currentPage - 1) * limit
  let endIdx := start + limit
  ⟨total, pages, currentPage, limit, (l.drop start).take (endIdx - start)⟩

/-! ## Output projection -/

/-- The second argument of `prepareCharacter`: either the wildcard string
`'*'` or an array of field paths. -/
inductive Fields where
  | star : Fields
  | list : List String → Fields

/-- The list-view whitelist passed to `prepareCharacter` by the handler. -/
def listFields : List String := ["id", "name", "images", "appearance.race"]

/-- `prepareCharacter(character, fields)` from the source: falsy characters
and wildcard field lists are returned unchanged; otherwise the cleaned
field paths are copied one by one from the character into a fresh object,
skipping paths that resolve to `undefined`. -/
def prepareCharacter (character : JsVal) (fields : Fields) : JsVal :=
  if jsFalsy character then character
  else
    match fields with
    | .star => character
    | .list fs =>
      if fs.contains "*" then character
      else
        let cleaned := ((fs.filter (fun s => s ≠ "")).map jsTrim).filter (fun s => s ≠ "")
        if cleaned.isEmpty then .vObj []
        else
          cleaned.foldl (fun out p =>
            match getByPath character p with
            | some val => setByPath out p val
            | none => out) (.vObj [])

/-! ## The `/races` endpoint -/

/-- JS `Set` insertion: append when absent, keep insertion order. -/
def setAdd (s : List String) (x : String) : List String :=
  if s.contains x then s else s ++ [x]

/-- `addRace` from the `/races` handler: trim the candidate and drop the
empty string and the placeholders `-`, `null` and `n/a` (the latter two
case-insensitively). -/
def addRace (s : List String) (val : String) : List String :=
  let r := jsTrim val
  if r == "" || r == "-" || jsToLower r == "null" || jsToLower r == "n/a" then s
  else setAdd s r

/-- The per-character step of the `/races` loop: skip falsy race values;
split the race string on `/`, trim and drop empty parts; when more than one
part remains, add every part, otherwise add the raw race string. -/
def collectStep (acc : List String) (ch : JsVal) : List String :=
  if falsyOpt (raceOf ch) then acc
  else
    let raw := strOfDef (raceOf ch)
    let parts := ((jsSplit raw '/').map jsTrim).filter (fun p => p ≠ "")
    if parts.length > 1 then parts.foldl addRace acc else addRace acc raw

/-- The `/races` handler: collect the distinct race values in insertion
order, then sort them with `localeCompare(·, undefined, (sensitivity base))`,
modelled as case-insensitive lexicographic comparison. -/
def races (chars : List JsVal) : List String :=
  (chars.foldl collectStep []).insertionSort
    (fun a b => cmpChars (jsToLower a).data (jsToLower b).data ≤ 0)

/-! ## Helper lemmas -/

/-- A string is empty exactly when its character list is. -/
lemma string_data_eq_nil {s : String} : s.data = [] ↔ s = "" := by
  obtain ⟨l⟩ := s
  show l = [] ↔ _
  constructor
  · rintro rfl
    rfl
  · intro h
    exact congrArg String.data h

/-- Natural ceiling division `(t + L - 1) / L` is the ceiling of the exact
rational quotient. -/
lemma natCeilDiv_eq_rat_ceil (t L : Nat) (hL : 1 ≤ L) :
    ((t + L - 1) / L : Nat) = Int.toNat ⌈(t : ℚ) / (L : ℚ)⌉ := by
  have hL0 : (0 : ℚ) < (L : ℚ) := by exact_mod_cast hL
  have key : ∀ c : Nat, (t + L - 1) / L ≤ c ↔ Int.toNat ⌈(t : ℚ) / (L : ℚ)⌉ ≤ c := by
    intro c
    have h1 : (t + L - 1) / L ≤ c ↔ t ≤ L * c := by
      rw [Nat.div_le_iff_le_mul_add_pred (by omega)]
      omega
    have h2 : Int.toNat ⌈(t : ℚ) / (L : ℚ)⌉ ≤ c ↔ t ≤ L * c := by
      rw [Int.toNat_le, Int.ceil_le, div_le_iff₀ hL0]
      rw [show (((c : ℤ) : ℚ) * (L : ℚ)) = ((L * c : ℕ) : ℚ) by push_cast; ring]
      exact Nat.cast_le
    rw [h1, h2]
  exact Nat.le_antisymm ((key _).mpr le_rfl) ((key _).mp le_rfl)

/-! ## C1: pagination arithmetic -/

/-- C1: for every collection and parsed `page ≥ 1`, `limit ≥ 1`, the
response metadata satisfies `pages = max 1 ⌈total / limit⌉`, the resolved
page is `min page pages` and lies in `[1, pages]`, the data slice is
exactly the records at 0-indexed positions
`[(resolvedPage-1)*limit, resolvedPage*limit)`, an out-of-range page is
clamped to the last page, and with a non-empty filtered list the slice is
never empty. -/
theorem pagination_correct {α : Type} (l : List α) (page limit : Nat)
    (hp : 1 ≤ page) (hl : 1 ≤ limit) :
    (paginate l page limit).total = l.length ∧
    (paginate l page limit).pages = max 1 (Int.toNat ⌈(l.length : ℚ) / (limit : ℚ)⌉) ∧
    (paginate l page limit).page = min page (paginate l page limit).pages ∧
    1 ≤ (paginate l page limit).page ∧
    (paginate l page limit).page ≤ (paginate l page limit).pages ∧
    (paginate l page limit).data =
      (l.drop (((paginate l page limit).page - 1) * limit)).take limit ∧
    ((paginate l page limit).pages < page →
      (paginate l page limit).page = (paginate l page limit).pages) ∧
    (0 < l.length → (paginate l page limit).data ≠ []) := by
  have hpages1 : 1 ≤ max 1 ((l.length + limit - 1) / limit) := le_max_left _ _
  refine ⟨rfl, ?_, rfl, ?_, ?_, ?_, ?_, ?_⟩
  · show max 1 ((l.length + limit - 1) / limit) = _
    rw [natCeilDiv_eq_rat_ceil _ _ hl]
  · exact le_min hp hpages1
  · exact min_le_right _ _
  · show (l.drop _).take (_ + limit - _) = _
    rw [Nat.add_sub_cancel_left]
    rfl
  · intro h
    exact min_eq_right (Nat.le_of_lt h)
  · intro htot
    show (l.drop ((min page (max 1 ((l.length + limit - 1) / limit)) - 1) * limit)).take
        (_ + limit - _) ≠ []
    rw [Nat.add_sub_cancel_left]
    have hq1 : 1 ≤ (l.length + limit - 1) / limit := by
      rw [Nat.le_div_iff_mul_le (by omega)]
      omega
    have hstart : (min page (max 1 ((l.length + limit - 1) / limit)) - 1) * limit <
        l.length := by
      have hml : ((l.length + limit - 1) / limit) * limit ≤ l.length + limit - 1 :=
        Nat.div_mul_le_self _ _
      have h1 : (min page (max 1 ((l.length + limit - 1) / limit)) - 1) * limit ≤
          ((l.length + limit - 1) / limit - 1) * limit :=
        Nat.mul_le_mul_right _ (by omega)
      have h2 : ∀ m : Nat, 1 ≤ m → (m - 1) * limit + limit = m * limit := by
        intro m hm
        cases m with
        | zero => omega
        | succ n => simp [Nat.succ_sub_one, Nat.succ_mul]
      have h3 := h2 _ hq1
      omega
    intro hnil
    rw [List.take_eq_nil_iff] at hnil
    rcases hnil with h | h
    · omega
    · rw [List.drop_eq_nil_iff] at h
      omega

/-- C1 witness: a 25-record collection at `page=2`, `limit=10` has
`pages = 3`, resolved page `2`, and the slice at positions 10–19. -/
theorem pagination_correct_witness :
    (paginate (List.range 25) 2 10).pages =
      max 1 (Int.toNat ⌈((List.range 25).length : ℚ) / (10 : ℚ)⌉) ∧
    1 ≤ (paginate (List.range 25) 2 10).page ∧
    (paginate (List.range 25) 2 10).page ≤ (paginate (List.range 25) 2 10).pages := by
  have h := pagination_correct (List.range 25) 2 10 (by decide) (by decide)
  exact ⟨h.2.1, h.2.2.2.1, h.2.2.2.2.1⟩

/-! ## C9: page/limit query parsing -/

/-- C9: parsing any textual (or absent) `page` and `limit` parameters never
fails: the results are always positive integers, an absent or unparsable
page (including zero and negative values) yields page `1`, and an absent or
unparsable limit yields the default page size `20`. -/
theorem page_limit_parsing_total (p p2 l l2 : Option String) :
    1 ≤ parsePage p p2 ∧ 1 ≤ parseLimit l l2 ∧
    parsePage none none = 1 ∧ parseLimit none none = 20 ∧
    (jsParseInt (jsOr p (jsOr p2 "1")) = none → parsePage p p2 = 1) ∧
    (∀ n : Int, jsParseInt (jsOr p (jsOr p2 "1")) = some n → n ≤ 0 →
      parsePage p p2 = 1) ∧
    (jsParseInt (jsOr l (jsOr l2 "20")) = none → parseLimit l l2 = 20) := by
  refine ⟨le_max_left _ _, le_max_left _ _, by decide, by decide, ?_, ?_, ?_⟩
  · intro h
    simp [parsePage, h, orNum]
  · intro n h hn
    simp only [parsePage, h, orNum]
    split
    · simp
    · rename_i hne
      have : n ≠ 0 := by simpa using hne
      omega
  · intro h
    simp [parseLimit, h, orNum]

/-- C9 witness: an unparsable page and limit fall back to `1` and `20`. -/
theorem page_limit_parsing_total_witness :
    parsePage (some "abc") none = 1 ∧ parseLimit (some "xyz") none = 20 ∧
    parsePage (some "-7") none = 1 := by
  refine ⟨?_, ?_, ?_⟩
  · exact (page_limit_parsing_total (some "abc") none none none).2.2.2.2.1 (by decide)
  · exact (page_limit_parsing_total none none (some "xyz") none).2.2.2.2.2.2 (by decide)
  · exact (page_limit_parsing_total (some "-7") none none none).2.2.2.2.2.1 (-7)
      (by decide) (by decide)

/-! ## C4: unresolved paths under generic filters -/

/-- C4 counterexample: with the empty expected value, a record on which the
path resolves to `undefined` *does* match the generic filter (`Number('')`
is `0`, `Number(undefined)` is `NaN`, so the comparison falls through to
`''.includes('')`, which is true), contradicting the claim that an
unresolved attribute never matches for any expected value. -/
theorem unresolved_never_matches_counterexample :
    getByPath (JsVal.vObj []) "powerstats.strength" = none ∧
    fieldFilterMatch (JsVal.vObj []) "powerstats.strength" "" = true :=
  ⟨rfl, rfl⟩

/-- C4 amended: a record whose dotted path resolves to `undefined` matches
a generic equality filter exactly when the expected value is the empty
string; for every non-empty expected value an unresolved attribute never
matches. -/
theorem unresolved_match_iff_empty (item : JsVal) (key expected : String)
    (h : getByPath item key = none) :
    (fieldFilterMatch item key expected = true ↔ expected = "") := by
  unfold fieldFilterMatch
  rw [h]
  have hred : (match (none : Option JsVal) with
      | some (.vArr elems _) => (elems.map jsToString).contains expected
      | actual =>
        match jsStrToNum expected, jsNum actual with
        | some e, some a => a == e
        | _, _ => jsIncludes (norm actual) (jsToLower expected)) =
      jsIncludes (norm none) (jsToLower expected) := by
    cases hke : jsStrToNum expected <;> rfl
  rw [hred]
  show hasSub (jsToLower expected).data [] = true ↔ expected = ""
  have hred2 : hasSub (jsToLower expected).data [] = (jsToLower expected).data.isEmpty := rfl
  rw [hred2]
  have hdata : (jsToLower expected).data = expected.data.map Char.toLower := rfl
  rw [hdata, List.isEmpty_iff, List.map_eq_nil_iff, string_data_eq_nil]

/-- C4 amended witness: on the empty object, filter `foo=''` matches while
`foo='x'` does not. -/
theorem unresolved_match_iff_empty_witness :
    fieldFilterMatch (JsVal.vObj []) "foo" "" = true ∧
    ¬ fieldFilterMatch (JsVal.vObj []) "foo" "x" = true := by
  constructor
  · exact (unresolved_match_iff_empty (JsVal.vObj []) "foo" "" rfl).mpr rfl
  · intro hmatch
    have := (unresolved_match_iff_empty (JsVal.vObj []) "foo" "x" rfl).mp hmatch
    exact absurd this (by decide)

/-! ## C3: generic field-filter comparison policy -/

/-- Is an optional value an array? (`Array.isArray` on a resolved value.) -/
def isArrOpt : Option JsVal → Bool
  | some (.vArr _ _) => true
  | _ => false

/-- When the resolved value is not an array, the filter reduces to the
numeric/substring comparison of the actual and expected values. -/
lemma fieldFilterMatch_not_arr (item : JsVal) (key expected : String)
    (hx : isArrOpt (getByPath item key) = false) :
    fieldFilterMatch item key expected =
      (match jsStrToNum expected, jsNum (getByPath item key) with
       | some e, some a => a == e
       | _, _ => jsIncludes (norm (getByPath item key)) (jsToLower expected)) := by
  unfold fieldFilterMatch
  cases hv : getByPath item key with
  | none => rfl
  | some v =>
    cases v with
    | vNull => rfl
    | vBool b => rfl
    | vNum n => rfl
    | vStr s => rfl
    | vObj fs => rfl
    | vArr elems props => rw [hv] at hx; simp [isArrOpt] at hx

/-- C3: comparison priority of a generic `path=expected` filter — an array
value matches iff the expected text equals the text form of some element;
otherwise, when both sides parse as numbers, iff they are numerically
equal; otherwise by case-insensitive substring containment; and multiple
filters are conjoined. -/
theorem field_filter_semantics (item : JsVal) (key expected : String) :
    (∀ elems props, getByPath item key = some (.vArr elems props) →
      (fieldFilterMatch item key expected = true ↔
        ∃ v ∈ elems, jsToString v = expected)) ∧
    (∀ e a, isArrOpt (getByPath item key) = false →
      jsStrToNum expected = some e → jsNum (getByPath item key) = some a →
      (fieldFilterMatch item key expected = true ↔ a = e)) ∧
    (isArrOpt (getByPath item key) = false →
      (jsStrToNum expected = none ∨ jsNum (getByPath item key) = none) →
      fieldFilterMatch item key expected =
        jsIncludes (norm (getByPath item key)) (jsToLower expected)) ∧
    (∀ filters : List (String × String),
      (applyFieldFilters filters item = true ↔
        ∀ kv ∈ filters, fieldFilterMatch item kv.1 kv.2 = true)) ∧
    fieldFilterMatch (.vObj [("powerstats", .vObj [("strength", .vNum 100)])])
      "powerstats.strength" "100" = true ∧
    fieldFilterMatch (.vObj [("powerstats", .vObj [("strength", .vStr "100")])])
      "powerstats.strength" "100" = true := by
  refine ⟨?_, ?_, ?_, ?_, rfl, rfl⟩
  · intro elems props h
    unfold fieldFilterMatch
    rw [h]
    simp [List.contains_iff_exists_mem_beq, List.mem_map]
  · intro e a harr he ha
    rw [fieldFilterMatch_not_arr item key expected harr, he, ha]
    simp
  · intro harr hor
    rw [fieldFilterMatch_not_arr item key expected harr]
    rcases hor with h | h
    · rw [h]
    · rw [h]
      cases jsStrToNum expected <;> rfl
  · intro filters
    simp [applyFieldFilters, List.all_eq_true]

/-- C3 witness: the array branch, the numeric branch and the substring
branch at concrete records. -/
theorem field_filter_semantics_witness :
    fieldFilterMatch (.vObj [("aliases", .vArr [.vStr "Spidey"] [])]) "aliases" "Spidey"
      = true ∧
    fieldFilterMatch (.vObj [("powerstats", .vObj [("strength", .vStr "100")])])
      "powerstats.strength" "100" = true := by
  constructor
  · exact ((field_filter_semantics (.vObj [("aliases", .vArr [.vStr "Spidey"] [])])
      "aliases" "Spidey").1 [.vStr "Spidey"] [] rfl).mpr ⟨.vStr "Spidey", by simp, rfl⟩
  · exact ((field_filter_semantics (.vObj [("powerstats", .vObj [("strength", .vStr "100")])])
      "powerstats.strength" "100").2.1 100 100 rfl rfl rfl).mpr rfl

/-! ## C2: race (category) filter -/

/-- The tokens of a race string as the claim describes them: split on `/`,
trim, lower-case, drop empty tokens. -/
def raceTokensOf (s : String) : List String :=
  ((jsSplit s '/').map (fun p => jsToLower (jsTrim p))).filter (fun p => p ≠ "")

/-- C2: with a non-empty requested race set, a record whose
`appearance.race` is a string matches iff some of its race tokens is in
the requested set; a record lacking the attribute never matches; and
`"Human / Cyborg"` matches a request for `cyborg`. -/
theorem race_filter_semantics :
    (∀ (item : JsVal) (s rawQ : String),
      parseRacesWanted rawQ ≠ [] →
      raceOf item = some (.vStr s) →
      (raceFilterMatch (parseRacesWanted rawQ) item = true ↔
        ∃ t ∈ raceTokensOf s, t ∈ parseRacesWanted rawQ)) ∧
    (∀ (item : JsVal) (wanted : List String), raceOf item = none →
      raceFilterMatch wanted item = false) ∧
    (∀ (rawQ : String) (l : List JsVal), parseRacesWanted rawQ ≠ [] →
      applyRaceFilter (some rawQ) l = l.filter (raceFilterMatch (parseRacesWanted rawQ))) ∧
    raceFilterMatch (parseRacesWanted "cyborg")
      (.vObj [("appearance", .vObj [("race", .vStr "Human / Cyborg")])]) = true := by
  refine ⟨?_, ?_, ?_, rfl⟩
  · intro item s rawQ _ h
    by_cases hs : s = ""
    · subst hs
      rw [show raceTokensOf "" = [] from rfl]
      simp only [raceFilterMatch, h]
      simp [falsyOpt, jsFalsy]
    · simp only [raceFilterMatch, h, falsyOpt, jsFalsy, strOfDef]
      rw [if_neg (by simp [hs])]
      show (raceTokensOf s).any _ = true ↔ _
      simp [List.any_eq_true, List.contains_iff_exists_mem_beq]
  · intro item wanted h
    simp [raceFilterMatch, h, falsyOpt]
  · intro rawQ l h
    simp only [applyRaceFilter]
    rw [if_neg (by simpa [List.isEmpty_iff] using h)]

/-- C2 witness: the record with race `"Human / Cyborg"` matches the request
`cyborg` via the token characterization. -/
theorem race_filter_semantics_witness :
    raceFilterMatch (parseRacesWanted "cyborg")
      (.vObj [("appearance", .vObj [("race", .vStr "Human / Cyborg")])]) = true := by
  exact (race_filter_semantics.1
    (.vObj [("appearance", .vObj [("race", .vStr "Human / Cyborg")])])
    "Human / Cyborg" "cyborg" (by decide) rfl).mpr
    ⟨"cyborg", by decide, by decide⟩

/-! ## C6: sort comparator semantics -/

/-- C6: the comparator ranks a record with a missing key before a present
one ascending and after it descending; two present values compare
numerically when both coerce to numbers and as case-folded locale text
otherwise, with the sign negated for descending order; and the direction
parameter defaults to ascending, recognizing only (case-insensitive)
`desc` as the alternate value. -/
theorem sort_comparator_semantics (sortKey : String) (a b : JsVal) :
    (nullish (getByPath a sortKey) = true → nullish (getByPath b sortKey) = false →
      characterCmp sortKey "asc" a b < 0 ∧ characterCmp sortKey "desc" a b > 0) ∧
    (nullish (getByPath a sortKey) = false → nullish (getByPath b sortKey) = true →
      characterCmp sortKey "asc" a b > 0 ∧ characterCmp sortKey "desc" a b < 0) ∧
    (∀ na nb, nullish (getByPath a sortKey) = false →
      nullish (getByPath b sortKey) = false →
      jsNum (getByPath a sortKey) = some na → jsNum (getByPath b sortKey) = some nb →
      characterCmp sortKey "asc" a b = na - nb ∧
      characterCmp sortKey "desc" a b = -(na - nb)) ∧
    (nullish (getByPath a sortKey) = false → nullish (getByPath b sortKey) = false →
      (jsNum (getByPath a sortKey) = none ∨ jsNum (getByPath b sortKey) = none) →
      characterCmp sortKey "asc" a b =
        cmpChars (jsToLower (strOfDef (getByPath a sortKey))).data
          (jsToLower (strOfDef (getByPath b sortKey))).data ∧
      characterCmp sortKey "desc" a b = -characterCmp sortKey "asc" a b) ∧
    (∀ o o2 : Option String,
      (parseSortOrder o o2 = "asc" ∨ parseSortOrder o o2 = "desc") ∧
      (parseSortOrder o o2 = "desc" ↔ jsToLower (jsOr o (jsOr o2 "asc")) = "desc")) ∧
    parseSortOrder none none = "asc" ∧
    parseSortOrder (some "DESC") none = "desc" ∧
    parseSortOrder (some "random") none = "asc" := by
  refine ⟨?_, ?_, ?_, ?_, ?_, by decide, by decide, by decide⟩
  · intro ha hb
    simp [characterCmp, ha, hb]
  · intro ha hb
    simp [characterCmp, ha, hb]
  · intro na nb ha hb hna hnb
    simp [characterCmp, ha, hb, hna, hnb]
  · intro ha hb hor
    rcases hor with h | h
    · cases hy : jsNum (getByPath b sortKey) <;>
        simp [characterCmp, ha, hb, h, hy]
    · cases hx : jsNum (getByPath a sortKey) <;>
        simp [characterCmp, ha, hb, h, hx]
  · intro o o2
    constructor
    · by_cases h : jsToLower (jsOr o (jsOr o2 "asc")) == "desc"
      · right
        simp [parseSortOrder, h]
      · left
        simp [parseSortOrder, h]
    · constructor
      · intro h
        by_cases hc : jsToLower (jsOr o (jsOr o2 "asc")) == "desc"
        · simpa using hc
        · simp [parseSortOrder, hc] at h
      · intro h
        simp [parseSortOrder, h]

/-- C6 witness: a record missing the key sorts before a present one
ascending and after it descending. -/
theorem sort_comparator_semantics_witness :
    characterCmp "powerstats.power" "asc" (.vObj [])
      (.vObj [("powerstats", .vObj [("power", .vNum 5)])]) < 0 ∧
    characterCmp "powerstats.power" "desc" (.vObj [])
      (.vObj [("powerstats", .vObj [("power", .vNum 5)])]) > 0 := by
  exact (sort_comparator_semantics "powerstats.power" (.vObj [])
    (.vObj [("powerstats", .vObj [("power", .vNum 5)])])).1 rfl rfl

/-! ## C7: sort stability -/

/-- C7: the sort is stable — two records on which the comparator ties keep
their relative order from the filtered list in the sorted output. -/
theorem sort_stable (sortKey ord : String) (l : List JsVal) (a b : JsVal)
    (htie : characterCmp sortKey ord a b = 0) (hab : [a, b].Sublist l) :
    [a, b].Sublist (sortCharacters sortKey ord l) := by
  unfold sortCharacters
  split
  · exact hab
  · exact List.pair_sublist_insertionSort (le_of_eq htie) hab

/-- C7 witness: two records tying on the sort key keep their order. -/
theorem sort_stable_witness :
    [JsVal.vObj [("x", .vNum 1), ("tag", .vStr "first")],
     JsVal.vObj [("x", .vNum 1), ("tag", .vStr "second")]].Sublist
      (sortCharacters "x" "asc"
        [.vObj [("x", .vNum 1), ("tag", .vStr "first")],
         .vObj [("x", .vNum 1), ("tag", .vStr "second")]]) := by
  exact sort_stable "x" "asc" _ _ _ (by decide) (List.Sublist.refl _)

/-! ## C10: path resolver round-trip -/

/-- Assigning a key makes it look up to the assigned value. -/
lemma lookupKey_setKey_self (fs : List (String × JsVal)) (k : String) (v : JsVal) :
    lookupKey (setKey fs k v) k = some v := by
  induction fs with
  | nil => simp [setKey, lookupKey]
  | cons kv rest ih =>
    obtain ⟨k', v'⟩ := kv
    by_cases h : k' == k
    · simp [setKey, h, lookupKey]
    · simp [setKey, h, lookupKey, ih]

/-- A property write on an object-like value reads back. -/
lemma jsGet_jsSet_self (t : JsVal) (k : String) (v : JsVal)
    (ht : isObjectLike t = true) : jsGet (jsSet t k v) k = some v := by
  cases t with
  | vObj fs => simp [jsSet, jsGet, lookupKey_setKey_self]
  | vArr elems props =>
    cases hidx : asArrayIndex k with
    | none => simp [jsSet, jsGet, hidx, lookupKey_setKey_self]
    | some i =>
      by_cases hlen : i < elems.length
      · simp [jsSet, jsGet, hidx, hlen]
      · simp [jsSet, jsGet, hidx, hlen, lookupKey_setKey_self,
          List.getElem?_eq_none (by omega : elems.length ≤ i)]
  | vNull => simp [isObjectLike] at ht
  | vBool b => simp [isObjectLike] at ht
  | vNum n => simp [isObjectLike] at ht
  | vStr s => simp [isObjectLike] at ht

/-- A property write keeps object-likes object-like. -/
lemma isObjectLike_jsSet (t : JsVal) (k : String) (v : JsVal)
    (ht : isObjectLike t = true) : isObjectLike (jsSet t k v) = true := by
  cases t with
  | vObj fs => rfl
  | vArr elems props =>
    cases hidx : asArrayIndex k with
    | none => simp [jsSet, hidx, isObjectLike]
    | some i =>
      by_cases hlen : i < elems.length <;> simp [jsSet, hidx, hlen, isObjectLike]
  | vNull => simp [isObjectLike] at ht
  | vBool b => simp [isObjectLike] at ht
  | vNum n => simp [isObjectLike] at ht
  | vStr s => simp [isObjectLike] at ht

/-- A `reduce` step on an object-like accumulator is a plain property read. -/
lemma stepGet_objLike (x : JsVal) (k : String) (hx : isObjectLike x = true) :
    stepGet (some x) k = jsGet x k := by
  cases x with
  | vObj fs => rfl
  | vArr elems props => rfl
  | vNull => simp [isObjectLike] at hx
  | vBool b => simp [isObjectLike] at hx
  | vNum n => simp [isObjectLike] at hx
  | vStr s => simp [isObjectLike] at hx

/-- The intermediate node `setByPath` descends into is always object-like. -/
lemma isObjectLike_child (t : JsVal) (k : String) :
    isObjectLike (match jsGet t k with
      | some c => if isObjectLike c then c else .vObj []
      | none => .vObj []) = true := by
  cases h : jsGet t k with
  | none => rfl
  | some c =>
    show isObjectLike (if isObjectLike c = true then c else JsVal.vObj []) = true
    by_cases hc : isObjectLike c = true
    · rw [if_pos hc]
      exact hc
    · rw [if_neg hc]
      rfl

/-- Walking the keys just written by the `setByPath` loop recovers the
written value. -/
lemma roundtrip_keys : ∀ (ks : List String) (t v : JsVal), ks ≠ [] →
    isObjectLike t = true →
    List.foldl stepGet (some (setKeysAux t ks v)) ks = some v
  | [], _, _, h, _ => absurd rfl h
  | [k], t, v, _, ht => by
    show List.foldl stepGet (stepGet (some (jsSet t k v)) k) [] = some v
    rw [stepGet_objLike _ _ (isObjectLike_jsSet t k v ht)]
    show jsGet (jsSet t k v) k = some v
    exact jsGet_jsSet_self t k v ht
  | k :: k' :: ks, t, v, _, ht => by
    show List.foldl stepGet
        (stepGet (some (jsSet t k (setKeysAux _ (k' :: ks) v))) k) (k' :: ks) = some v
    rw [stepGet_objLike _ _ (isObjectLike_jsSet t k _ ht),
      jsGet_jsSet_self t k _ ht]
    exact roundtrip_keys (k' :: ks) _ v (by simp) (isObjectLike_child t k)

/-- Splitting a string never yields an empty list of groups. -/
lemma splitChars_ne_nil (sep : Char) (l : List Char) : splitChars sep l ≠ [] := by
  cases l with
  | nil => simp [splitChars]
  | cons c cs =>
    simp only [splitChars]
    cases h : splitChars sep cs with
    | nil => simp
    | cons g gs => by_cases hc : c == sep <;> simp [hc]

/-- A split path always has at least one key. -/
lemma jsSplit_ne_nil (path : String) (sep : Char) : jsSplit path sep ≠ [] := by
  simp [jsSplit, splitChars_ne_nil]

/-- C10: for every object-like target, non-empty dotted path and value,
`getByPath` after `setByPath` returns exactly the written value —
`setByPath` creates missing intermediate groups as fresh objects and
overwrites non-object values along the way, so the write is always
readable back at the same path. -/
theorem get_set_roundtrip (target : JsVal) (path : String) (value : JsVal)
    (ht : isObjectLike target = true) (hp : path ≠ "") :
    getByPath (setByPath target path value) path = some value := by
  unfold getByPath setByPath
  rw [if_neg (by simpa using hp)]
  exact roundtrip_keys (jsSplit path '.') target value (jsSplit_ne_nil path '.') ht

/-- C10 witness: a two-level path written into an empty object reads back. -/
theorem get_set_roundtrip_witness :
    getByPath (setByPath (.vObj []) "a.b" (.vStr "v")) "a.b" = some (.vStr "v") :=
  get_set_roundtrip (.vObj []) "a.b" (.vStr "v") rfl (by decide)

/-! ## C8: output projection -/

/-- Top-level property names of an object. -/
def topKeys : JsVal → List String
  | .vObj fs => fs.map Prod.fst
  | _ => []

/-- A field list containing the wildcard short-circuits to the original
truthy character. -/
lemma prepareCharacter_star_list (c : JsVal) (hc : jsFalsy c = false)
    (fs : List String) (h : fs.contains "*" = true) :
    prepareCharacter c (.list fs) = c := by
  show (if jsFalsy c = true then c
    else if fs.contains "*" = true then c
    else
      let cleaned := ((fs.filter (fun s => s ≠ "")).map jsTrim).filter (fun s => s ≠ "")
      if cleaned.isEmpty = true then JsVal.vObj []
      else
        cleaned.foldl (fun out p =>
          match getByPath c p with
          | some val => setByPath out p val
          | none => out) (.vObj [])) = c
  rw [hc, h]
  rfl

/-- One step of the projection fold: copy path `p` of `c` into `out` when
it resolves. -/
def projStep (c out : JsVal) (p : String) : JsVal :=
  match getByPath c p with
  | some val => setByPath out p val
  | none => out

/-- On a truthy character, projection by the concrete list-view whitelist is
the fold that copies each whitelisted path that resolves. -/
lemma prepare_list_eq (c : JsVal) (hc : jsFalsy c = false) :
    prepareCharacter c (.list listFields) =
      List.foldl (projStep c) (.vObj []) listFields := by
  unfold prepareCharacter
  rw [hc]
  rfl

/-- Assigning one key leaves every other key's lookup unchanged. -/
lemma lookupKey_setKey_ne (fs : List (String × JsVal)) (k k' : String) (v : JsVal)
    (h : (k == k') = false) :
    lookupKey (setKey fs k v) k' = lookupKey fs k' := by
  induction fs with
  | nil => simp [setKey, lookupKey, h]
  | cons kv rest ih =>
    obtain ⟨k2, v2⟩ := kv
    by_cases h2 : k2 == k
    · have : k2 = k := by simpa using h2
      subst this
      simp [setKey, lookupKey, h, h2]
    · simp [setKey, lookupKey, h2, ih]

/-- Assigning a key adds at most that key to the key set. -/
lemma setKey_keys_mem (fs : List (String × JsVal)) (k : String) (v : JsVal) :
    ∀ a, a ∈ (setKey fs k v).map Prod.fst → a = k ∨ a ∈ fs.map Prod.fst := by
  induction fs with
  | nil =>
    intro a ha
    simp [setKey] at ha
    exact Or.inl ha
  | cons kv rest ih =>
    obtain ⟨k2, v2⟩ := kv
    intro a ha
    by_cases h2 : (k2 == k) = true
    · rw [show setKey ((k2, v2) :: rest) k v = (k, v) :: rest from by
        simp [setKey, h2]] at ha
      simp only [List.map_cons, List.mem_cons] at ha ⊢
      tauto
    · rw [show setKey ((k2, v2) :: rest) k v = (k2, v2) :: setKey rest k v from by
        simp [setKey, h2]] at ha
      simp only [List.map_cons, List.mem_cons] at ha ⊢
      rcases ha with ha | ha
      · tauto
      · rcases ih a ha with h | h <;> tauto

/-- A key outside the key set looks up to nothing. -/
lemma lookupKey_eq_none_of_not_mem (fs : List (String × JsVal)) (k : String)
    (h : k ∉ fs.map Prod.fst) : lookupKey fs k = none := by
  induction fs with
  | nil => rfl
  | cons kv rest ih =>
    obtain ⟨k2, v2⟩ := kv
    simp only [List.map_cons, List.mem_cons] at h
    push_neg at h
    have hne : (k2 == k) = false := by
      simp only [beq_eq_false_iff_ne, ne_eq]
      exact fun hkk => h.1 hkk.symm
    show (if (k2 == k) = true then some v2 else lookupKey rest k) = none
    rw [hne]
    simp only [Bool.false_eq_true, if_false]
    exact ih h.2

/-- `setByPath` on an object with the two-key path `appearance.race`, when
the head key is absent, creates the nested group in one step. -/
lemma setKeysAux_two_fresh (fs : List (String × JsVal)) (k1 k2 : String) (v : JsVal)
    (h : lookupKey fs k1 = none) :
    setKeysAux (.vObj fs) [k1, k2] v = .vObj (setKey fs k1 (.vObj [(k2, v)])) := by
  show JsVal.vObj (setKey fs k1
      (jsSet (match jsGet (.vObj fs) k1 with
        | some c => if isObjectLike c then c else .vObj []
        | none => .vObj []) k2 v)) = _
  rw [show jsGet (.vObj fs) k1 = lookupKey fs k1 from rfl, h]
  rfl

/-- One single-key step of the projection fold: the stepped object is still
an object, holds the source value at the stepped key, and is otherwise
unchanged, its key set growing by at most the stepped key. -/
lemma fold_step_single (c : JsVal) (fso : List (String × JsVal))
    (k : String) (hk : jsSplit k '.' = [k]) (hnk : lookupKey fso k = none) :
    ∃ fs', projStep c (.vObj fso) k = .vObj fs' ∧
      lookupKey fs' k = getByPath c k ∧
      (∀ k', (k == k') = false → lookupKey fs' k' = lookupKey fso k') ∧
      (∀ a, a ∈ fs'.map Prod.fst → a = k ∨ a ∈ fso.map Prod.fst) := by
  unfold projStep
  cases h : getByPath c k with
  | none =>
    exact ⟨fso, rfl, by rw [hnk], fun k' _ => rfl, fun a ha => Or.inr ha⟩
  | some val =>
    refine ⟨setKey fso k val, ?_, ?_, ?_, setKey_keys_mem fso k val⟩
    · show setKeysAux (.vObj fso) (jsSplit k '.') val = _
      rw [hk]
      rfl
    · rw [lookupKey_setKey_self]
    · intro k' hne
      exact lookupKey_setKey_ne fso k k' val hne

/-- C8: projecting any record with the list-view whitelist yields an object
whose top-level keys lie in `id`, `name`, `images`, `appearance`, whose
`appearance` group (when present) holds only `race`, and whose values at
the whitelisted paths agree with the input (so an undefined whitelisted
path is simply omitted); the wildcard — as the `'*'` argument or inside the
field list — returns the record unchanged. -/
theorem projection_whitelist (fs₀ : List (String × JsVal)) :
    (∀ k, k ∈ topKeys (prepareCharacter (.vObj fs₀) (.list listFields)) →
      k ∈ (["id", "name", "images", "appearance"] : List String)) ∧
    (∀ a, jsGet (prepareCharacter (.vObj fs₀) (.list listFields)) "appearance" = some a →
      ∀ k, k ∈ topKeys a → k = "race") ∧
    (∀ p, p ∈ listFields →
      getByPath (prepareCharacter (.vObj fs₀) (.list listFields)) p =
        getByPath (.vObj fs₀) p) ∧
    prepareCharacter (.vObj fs₀) .star = .vObj fs₀ ∧
    (∀ fs : List String, fs.contains "*" = true →
      prepareCharacter (.vObj fs₀) (.list fs) = .vObj fs₀) := by
  set c : JsVal := .vObj fs₀ with hc
  rw [prepare_list_eq c rfl]
  simp only [listFields, List.foldl_cons, List.foldl_nil]
  obtain ⟨fs1, he1, hv1, hp1, hs1⟩ :=
    fold_step_single c [] "id" rfl rfl
  rw [he1]
  have hn1 : lookupKey fs1 "name" = none := by
    refine lookupKey_eq_none_of_not_mem fs1 "name" (fun hmem => ?_)
    rcases hs1 _ hmem with h | h
    · exact absurd h (by decide)
    · simp at h
  obtain ⟨fs2, he2, hv2, hp2, hs2⟩ :=
    fold_step_single c fs1 "name" rfl hn1
  rw [he2]
  have hn2 : lookupKey fs2 "images" = none := by
    refine lookupKey_eq_none_of_not_mem fs2 "images" (fun hmem => ?_)
    rcases hs2 _ hmem with h | h
    · exact absurd h (by decide)
    · rcases hs1 _ h with h1 | h1
      · exact absurd h1 (by decide)
      · simp at h1
  obtain ⟨fs3, he3, hv3, hp3, hs3⟩ :=
    fold_step_single c fs2 "images" rfl hn2
  rw [he3]
  have hnk3 : lookupKey fs3 "appearance" = none := by
    refine lookupKey_eq_none_of_not_mem fs3 "appearance" (fun hmem => ?_)
    rcases hs3 _ hmem with h | h
    · exact absurd h (by decide)
    · rcases hs2 _ h with h2 | h2
      · exact absurd h2 (by decide)
      · rcases hs1 _ h2 with h1 | h1
        · exact absurd h1 (by decide)
        · simp at h1
  -- the final, two-key step
  have happ : ∃ fs4, projStep c (.vObj fs3) "appearance.race" = .vObj fs4 ∧
      (∀ k', ("appearance" == k') = false → lookupKey fs4 k' = lookupKey fs3 k') ∧
      (∀ a, a ∈ fs4.map Prod.fst → a = "appearance" ∨ a ∈ fs3.map Prod.fst) ∧
      (getByPath c "appearance.race" = none → lookupKey fs4 "appearance" = none) ∧
      (∀ val, getByPath c "appearance.race" = some val →
        lookupKey fs4 "appearance" = some (.vObj [("race", val)])) := by
    unfold projStep
    cases h : getByPath c "appearance.race" with
    | none =>
      refine ⟨fs3, rfl, fun k' _ => rfl, fun a ha => Or.inr ha, fun _ => hnk3, ?_⟩
      intro val hval
      cases hval
    | some val =>
      have hset : setByPath (.vObj fs3) "appearance.race" val =
          .vObj (setKey fs3 "appearance" (.vObj [("race", val)])) := by
        show setKeysAux (.vObj fs3) (jsSplit "appearance.race" '.') val = _
        rw [show jsSplit "appearance.race" '.' = ["appearance", "race"] from rfl]
        exact setKeysAux_two_fresh fs3 "appearance" "race" val hnk3
      refine ⟨setKey fs3 "appearance" (.vObj [("race", val)]), ?_, ?_, ?_, ?_, ?_⟩
      · show setByPath (JsVal.vObj fs3) "appearance.race" val = _
        exact hset
      · intro k' hne
        exact lookupKey_setKey_ne fs3 "appearance" k' _ hne
      · exact setKey_keys_mem fs3 "appearance" _
      · intro hcontra
        cases hcontra
      · intro val' hval'
        injection hval' with hval'
        rw [lookupKey_setKey_self, hval']
  obtain ⟨fs4, he4, hp4, hs4, hv4none, hv4some⟩ := happ
  rw [he4]
  refine ⟨?_, ?_, ?_, rfl, ?_⟩
  · -- key whitelist
    intro k hk
    simp only [topKeys] at hk
    rcases hs4 _ hk with h | h
    · simp [h]
    · rcases hs3 _ h with h3 | h3
      · simp [h3]
      · rcases hs2 _ h3 with h2 | h2
        · simp [h2]
        · rcases hs1 _ h2 with h1 | h1
          · simp [h1]
          · simp at h1
  · -- appearance subobject holds only race
    intro a ha k hk
    cases h : getByPath c "appearance.race" with
    | none =>
      rw [show jsGet (JsVal.vObj fs4) "appearance" = lookupKey fs4 "appearance" from rfl,
        hv4none h] at ha
      cases ha
    | some val =>
      rw [show jsGet (JsVal.vObj fs4) "appearance" = lookupKey fs4 "appearance" from rfl,
        hv4some val h] at ha
      injection ha with ha
      subst ha
      simpa [topKeys] using hk
  · -- values at whitelisted paths agree with the input
    intro p hp
    have hsingle : ∀ k : String, jsSplit k '.' = [k] → (k == "") = false →
        getByPath (JsVal.vObj fs4) k = lookupKey fs4 k := by
      intro k hk hk0
      show (if (k == "") = true then none else (jsSplit k '.').foldl stepGet _) = _
      rw [hk0]
      simp only [Bool.false_eq_true, if_false]
      rw [hk]
      rfl
    simp at hp
    rcases hp with rfl | rfl | rfl | rfl
    · rw [hsingle "id" rfl rfl, hp4 "id" rfl, hp3 "id" rfl, hp2 "id" rfl, hv1]
    · rw [hsingle "name" rfl rfl, hp4 "name" rfl, hp3 "name" rfl, hv2]
    · rw [hsingle "images" rfl rfl, hp4 "images" rfl, hv3]
    · show List.foldl stepGet (some (JsVal.vObj fs4)) (jsSplit "appearance.race" '.') =
        getByPath c "appearance.race"
      rw [show jsSplit "appearance.race" '.' = ["appearance", "race"] from rfl]
      cases h : getByPath c "appearance.race" with
      | none =>
        show stepGet (stepGet (some (JsVal.vObj fs4)) "appearance") "race" = none
        rw [show stepGet (some (JsVal.vObj fs4)) "appearance" =
          lookupKey fs4 "appearance" from rfl, hv4none h]
        rfl
      | some val =>
        show stepGet (stepGet (some (JsVal.vObj fs4)) "appearance") "race" = some val
        rw [show stepGet (some (JsVal.vObj fs4)) "appearance" =
          lookupKey fs4 "appearance" from rfl, hv4some val h]
        rfl
  · intro fs h
    rw [hc]
    exact prepareCharacter_star_list (JsVal.vObj fs₀) rfl fs h

/-- C8 witness: a record with a secret field projects to the whitelist
only, and the wildcard returns it unchanged. -/
theorem projection_whitelist_witness :
    (∀ k, k ∈ topKeys (prepareCharacter
        (.vObj [("id", .vNum 1), ("secret", .vStr "s")]) (.list listFields)) →
      k ∈ (["id", "name", "images", "appearance"] : List String)) ∧
    prepareCharacter (.vObj [("id", .vNum 1), ("secret", .vStr "s")]) .star =
      .vObj [("id", .vNum 1), ("secret", .vStr "s")] := by
  exact ⟨(projection_whitelist [("id", .vNum 1), ("secret", .vStr "s")]).1,
    (projection_whitelist [("id", .vNum 1), ("secret", .vStr "s")]).2.2.2.1⟩

/-! ## C5: the distinct-race-values query -/

/-- Is a trimmed candidate kept by `addRace` (not empty, not a placeholder)? -/
def goodToken (r : String) : Bool :=
  !(r == "" || r == "-" || jsToLower r == "null" || jsToLower r == "n/a")

/-- The race values a single record actually contributes (before
deduplication and sorting): when splitting on `/` leaves at least two
non-empty trimmed parts those parts are the candidates, otherwise the whole
raw race string is the sole candidate; every candidate is trimmed and the
empty and placeholder candidates are discarded. -/
def amendedTokens (ch : JsVal) : List String :=
  if falsyOpt (raceOf ch) then []
  else
    ((if (((jsSplit (strOfDef (raceOf ch)) '/').map jsTrim).filter
          (fun p => p ≠ "")).length > 1
      then ((jsSplit (strOfDef (raceOf ch)) '/').map jsTrim).filter (fun p => p ≠ "")
      else [strOfDef (raceOf ch)]).map jsTrim).filter goodToken

/-- C5 counterexample: on the single record with race `"Human /"` the
endpoint returns `["Human /"]` — the raw, slash-containing string — while
the claimed tokenization (split on `/`, trim, discard empty and
placeholder tokens) yields `["Human"]`: the code adds the whole raw value
whenever fewer than two non-empty parts survive the split. -/
theorem races_claim_counterexample :
    races [.vObj [("appearance", .vObj [("race", .vStr "Human /")])]] = ["Human /"] ∧
    (((jsSplit "Human /" '/').map jsTrim).filter (fun p => p ≠ "")).filter goodToken
      = ["Human"] ∧
    ("Human /" : String) ≠ "Human" :=
  ⟨rfl, rfl, by decide⟩

/-- `cmpChars` against the empty word is never positive. -/
lemma cmpChars_nil_nonpos (c : List Char) : cmpChars [] c ≤ 0 := by
  cases c <;> simp [cmpChars]

/-- `cmpChars` is antisymmetric in sign. -/
lemma cmpChars_neg_symm : ∀ a b : List Char, cmpChars a b = -cmpChars b a
  | [], [] => rfl
  | [], _ :: _ => rfl
  | _ :: _, [] => rfl
  | a :: as, b :: bs => by
    simp only [cmpChars]
    rcases lt_trichotomy a b with h | h | h
    · rw [if_pos h, if_neg (asymm h), if_pos h]
    · subst h
      rw [if_neg (lt_irrefl a), if_neg (lt_irrefl a), if_neg (lt_irrefl a),
        if_neg (lt_irrefl a)]
      exact cmpChars_neg_symm as bs
    · rw [if_neg (asymm h), if_pos h, if_pos h]
      rfl

/-- `cmpChars` is transitive at the non-positive side. -/
lemma cmpChars_le_trans : ∀ a b c : List Char,
    cmpChars a b ≤ 0 → cmpChars b c ≤ 0 → cmpChars a c ≤ 0
  | [], _, c, _, _ => cmpChars_nil_nonpos c
  | _ :: _, [], _, hab, _ => by simp [cmpChars] at hab
  | _ :: _, _ :: _, [], _, hbc => by simp [cmpChars] at hbc
  | a :: as, b :: bs, c :: cs, hab, hbc => by
    simp only [cmpChars] at hab hbc ⊢
    rcases lt_trichotomy a b with h1 | h1 | h1
    · rcases lt_trichotomy b c with h2 | h2 | h2
      · rw [if_pos (lt_trans h1 h2)]
        omega
      · subst h2
        rw [if_pos h1]
        omega
      · rw [if_neg (asymm h2), if_pos h2] at hbc
        omega
    · subst h1
      rw [if_neg (lt_irrefl a), if_neg (lt_irrefl a)] at hab
      rcases lt_trichotomy a c with h2 | h2 | h2
      · rw [if_pos h2]
        omega
      · subst h2
        rw [if_neg (lt_irrefl a), if_neg (lt_irrefl a)] at hbc ⊢
        exact cmpChars_le_trans as bs cs hab hbc
      · rw [if_neg (asymm h2), if_pos h2] at hbc
        omega
    · rw [if_neg (asymm h1), if_pos h1] at hab
      omega

/-- Membership in a `Set`-style insertion. -/
lemma mem_setAdd (s : List String) (x y : String) :
    y ∈ setAdd s x ↔ y ∈ s ∨ y = x := by
  unfold setAdd
  by_cases h : s.contains x = true
  · rw [if_pos h]
    constructor
    · exact Or.inl
    · rintro (hy | rfl)
      · exact hy
      · simpa using h
  · rw [if_neg h]
    simp [List.mem_append]

/-- `Set`-style insertion keeps the list duplicate-free. -/
lemma nodup_setAdd (s : List String) (x : String) (h : s.Nodup) :
    (setAdd s x).Nodup := by
  unfold setAdd
  by_cases hc : s.contains x = true
  · rw [if_pos hc]
    exact h
  · rw [if_neg hc]
    rw [← List.concat_eq_append]
    refine List.Nodup.concat (fun hmem => hc ?_) h
    simpa using hmem

/-- Membership after one `addRace` step. -/
lemma mem_addRace (acc : List String) (t x : String) :
    x ∈ addRace acc t ↔
      x ∈ acc ∨ (x = jsTrim t ∧ goodToken (jsTrim t) = true) := by
  simp only [addRace]
  by_cases hb : (jsTrim t == "" || jsTrim t == "-" || jsToLower (jsTrim t) == "null"
      || jsToLower (jsTrim t) == "n/a") = true
  · rw [if_pos hb]
    simp [goodToken, hb]
  · rw [if_neg hb]
    rw [mem_setAdd]
    simp only [goodToken]
    rw [show (jsTrim t == "" || jsTrim t == "-" || jsToLower (jsTrim t) == "null"
      || jsToLower (jsTrim t) == "n/a") = false from by simpa using hb]
    simp

/-- `addRace` keeps the accumulator duplicate-free. -/
lemma nodup_addRace (acc : List String) (t : String) (h : acc.Nodup) :
    (addRace acc t).Nodup := by
  simp only [addRace]
  by_cases hb : (jsTrim t == "" || jsTrim t == "-" || jsToLower (jsTrim t) == "null"
      || jsToLower (jsTrim t) == "n/a") = true
  · rw [if_pos hb]
    exact h
  · rw [if_neg hb]
    exact nodup_setAdd acc (jsTrim t) h

/-- Membership after folding `addRace` over a part list. -/
lemma mem_foldl_addRace : ∀ (parts acc : List String) (x : String),
    x ∈ parts.foldl addRace acc ↔
      x ∈ acc ∨ ∃ p ∈ parts, x = jsTrim p ∧ goodToken (jsTrim p) = true
  | [], acc, x => by simp
  | t :: ts, acc, x => by
    rw [List.foldl_cons, mem_foldl_addRace ts (addRace acc t) x, mem_addRace acc t x]
    constructor
    · rintro ((hy | hy) | ⟨p, hp, rfl, hg⟩)
      · exact Or.inl hy
      · exact Or.inr ⟨t, List.mem_cons_self t ts, hy.1, hy.2⟩
      · exact Or.inr ⟨p, List.mem_cons_of_mem t hp, rfl, hg⟩
    · rintro (hy | ⟨p, hp, rfl, hg⟩)
      · exact Or.inl (Or.inl hy)
      · rcases List.mem_cons.mp hp with rfl | hp
        · exact Or.inl (Or.inr ⟨rfl, hg⟩)
        · exact Or.inr ⟨p, hp, rfl, hg⟩

/-- Folding `addRace` keeps the accumulator duplicate-free. -/
lemma nodup_foldl_addRace : ∀ (parts acc : List String), acc.Nodup →
    (parts.foldl addRace acc).Nodup
  | [], _, h => h
  | t :: ts, acc, h =>
    nodup_foldl_addRace ts (addRace acc t) (nodup_addRace acc t h)

/-- Membership after one record of the `/races` loop. -/
lemma mem_collectStep (acc : List String) (ch : JsVal) (x : String) :
    x ∈ collectStep acc ch ↔ x ∈ acc ∨ x ∈ amendedTokens ch := by
  simp only [collectStep, amendedTokens]
  by_cases hf : falsyOpt (raceOf ch) = true
  · rw [if_pos hf, if_pos hf]
    simp
  · rw [if_neg hf, if_neg hf]
    by_cases hl : (((jsSplit (strOfDef (raceOf ch)) '/').map jsTrim).filter
        (fun p => p ≠ "")).length > 1
    · rw [if_pos hl, if_pos hl, mem_foldl_addRace]
      simp only [List.mem_filter, List.mem_map]
      constructor
      · rintro (hy | ⟨p, hp, rfl, hg⟩)
        · exact Or.inl hy
        · exact Or.inr ⟨⟨p, hp, rfl⟩, hg⟩
      · rintro (hy | ⟨⟨p, hp, rfl⟩, hg⟩)
        · exact Or.inl hy
        · exact Or.inr ⟨p, hp, rfl, hg⟩
    · rw [if_neg hl, if_neg hl, mem_addRace]
      simp only [List.map_cons, List.map_nil, List.mem_filter, List.mem_singleton]
      constructor
      · rintro (hy | ⟨rfl, hg⟩)
        · exact Or.inl hy
        · exact Or.inr ⟨rfl, hg⟩
      · rintro (hy | ⟨rfl, hg⟩)
        · exact Or.inl hy
        · exact Or.inr ⟨rfl, hg⟩

/-- One record of the `/races` loop keeps the accumulator duplicate-free. -/
lemma nodup_collectStep (acc : List String) (ch : JsVal) (h : acc.Nodup) :
    (collectStep acc ch).Nodup := by
  simp only [collectStep]
  by_cases hf : falsyOpt (raceOf ch) = true
  · rw [if_pos hf]
    exact h
  · rw [if_neg hf]
    by_cases hl : (((jsSplit (strOfDef (raceOf ch)) '/').map jsTrim).filter
        (fun p => p ≠ "")).length > 1
    · rw [if_pos hl]
      exact nodup_foldl_addRace _ acc h
    · rw [if_neg hl]
      exact nodup_addRace acc _ h

/-- Membership after the whole `/races` loop. -/
lemma mem_foldl_collectStep : ∀ (chars : List JsVal) (acc : List String) (x : String),
    x ∈ chars.foldl collectStep acc ↔ x ∈ acc ∨ ∃ ch ∈ chars, x ∈ amendedTokens ch
  | [], acc, x => by simp
  | c0 :: cs, acc, x => by
    rw [List.foldl_cons, mem_foldl_collectStep cs (collectStep acc c0) x,
      mem_collectStep acc c0 x]
    constructor
    · rintro ((hy | hy) | ⟨ch, hch, hx⟩)
      · exact Or.inl hy
      · exact Or.inr ⟨c0, List.mem_cons_self c0 cs, hy⟩
      · exact Or.inr ⟨ch, List.mem_cons_of_mem c0 hch, hx⟩
    · rintro (hy | ⟨ch, hch, hx⟩)
      · exact Or.inl (Or.inl hy)
      · rcases List.mem_cons.mp hch with rfl | hch
        · exact Or.inl (Or.inr hx)
        · exact Or.inr ⟨ch, hch, hx⟩

/-- The whole `/races` loop yields a duplicate-free list. -/
lemma nodup_foldl_collectStep : ∀ (chars : List JsVal) (acc : List String),
    acc.Nodup → (chars.foldl collectStep acc).Nodup
  | [], _, h => h
  | c0 :: cs, acc, h =>
    nodup_foldl_collectStep cs (collectStep acc c0) (nodup_collectStep acc c0 h)

/-- C5 amended: the distinct-race-values query returns a duplicate-free
list, sorted by the case-insensitive locale comparison, of exactly the
record race candidates — the non-empty trimmed split parts when at least
two survive, the whole trimmed raw race value otherwise — with empty and
placeholder candidates (`-`, `null`, `n/a`, the latter two
case-insensitively) discarded; the claimed example (`"Human"`,
`"Human / Cyborg"`, `"-"` yields `["Cyborg", "Human"]`) holds. -/
theorem races_semantics (chars : List JsVal) :
    (races chars).Nodup ∧
    (races chars).Sorted (fun a b => cmpChars (jsToLower a).data (jsToLower b).data ≤ 0) ∧
    (∀ x, x ∈ races chars ↔ ∃ ch ∈ chars, x ∈ amendedTokens ch) ∧
    races [.vObj [("appearance", .vObj [("race", .vStr "Human")])],
           .vObj [("appearance", .vObj [("race", .vStr "Human / Cyborg")])],
           .vObj [("appearance", .vObj [("race", .vStr "-")])]] = ["Cyborg", "Human"] := by
  haveI htrans : IsTrans String
      (fun a b => cmpChars (jsToLower a).data (jsToLower b).data ≤ 0) :=
    ⟨fun a b c hab hbc => cmpChars_le_trans _ _ _ hab hbc⟩
  haveI htotal : IsTotal String
      (fun a b => cmpChars (jsToLower a).data (jsToLower b).data ≤ 0) := by
    refine ⟨fun a b => ?_⟩
    by_cases h : cmpChars (jsToLower a).data (jsToLower b).data ≤ 0
    · exact Or.inl h
    · refine Or.inr ?_
      rw [cmpChars_neg_symm]
      omega
  refine ⟨?_, ?_, ?_, by rfl⟩
  · exact ((List.perm_insertionSort _ _).nodup_iff).mpr
      (nodup_foldl_collectStep chars [] List.nodup_nil)
  · exact List.sorted_insertionSort _ _
  · intro x
    unfold races
    rw [List.mem_insertionSort, mem_foldl_collectStep]
    simp

/-- C5 amended witness: on the example collection, `"Cyborg"` is in the
output because it is a candidate of the second record. -/
theorem races_semantics_witness :
    "Cyborg" ∈ races [.vObj [("appearance", .vObj [("race", .vStr "Human")])],
      .vObj [("appearance", .vObj [("race", .vStr "Human / Cyborg")])],
      .vObj [("appearance", .vObj [("race", .vStr "-")])]] := by
  refine ((races_semantics [.vObj [("appearance", .vObj [("race", .vStr "Human")])],
    .vObj [("appearance", .vObj [("race", .vStr "Human / Cyborg")])],
    .vObj [("appearance", .vObj [("race", .vStr "-")])]]).2.2.1 "Cyborg").mpr ?_
  refine ⟨.vObj [("appearance", .vObj [("race", .vStr "Human / Cyborg")])], by simp, ?_⟩
  show "Cyborg" ∈ amendedTokens (.vObj [("appearance", .vObj [("race", .vStr "Human / Cyborg")])])
  rw [show amendedTokens (.vObj [("appearance", .vObj [("race", .vStr "Human / Cyborg")])])
    = ["Human", "Cyborg"] from rfl]
  simp

end HeroApi
